import Mathlib

/-!
Shallow embedding of `src/vs/platform/extensionManagement/node/extensionDownloader.ts`
(the `ExtensionsDownloader` class): the naming scheme for cached extension
artifacts, the startup reconciliation pass (`cleanUp`), and the public
`downloadExtension` / `delete` operations.

Strings are modelled as `List Char`; file-system resources are identified by
natural numbers; the Blob Store (`IFileService`) and the Artifact Fetcher
(`IExtensionGalleryService`) are modelled as oracles supplied to the
operations, matching the spec's external-collaborator interfaces.
-/

namespace ExtDl

abbrev Str := List Char

/-- ASCII lower-casing of one character, as applied by
`String.prototype.toLowerCase` on ASCII input (the embedding is restricted to
ASCII; extension ids and versions are ASCII in practice). -/
def lowerChar (c : Char) : Char :=
  if 'A' ≤ c ∧ c ≤ 'Z' then Char.ofNat (c.toNat + 32) else c

/-- Lower-casing of a string (`.toLowerCase()` in `getName`, line 98). -/
def lowerStr (s : Str) : Str := s.map lowerChar

/--
`versionOk v` holds iff `v` matches the version part of
`ExtensionIdVersionRegex = /^([^.]+\..+)-(\d+\.\d+\.\d+)$/` (line 19), i.e. the
anchored pattern `\d+\.\d+\.\d+`: three nonempty digit runs separated by
literal dots.  The greedy `\d+` is equivalent to the maximal digit run here,
because each run is followed by a literal `.` (or the end of the string),
which is not a digit, so backtracking can never help.
-/
def versionOk (v : Str) : Bool :=
  match v.dropWhile Char.isDigit with
  | '.' :: r1 =>
    match r1.dropWhile Char.isDigit with
    | '.' :: r2 =>
      (!(v.takeWhile Char.isDigit).isEmpty) && (!(r1.takeWhile Char.isDigit).isEmpty) &&
        (!r2.isEmpty) && r2.all Char.isDigit
    | _ => false
  | _ => false

/-- The JS line terminators (ECMA-262 LineTerminator: LF, CR, LINE
SEPARATOR, PARAGRAPH SEPARATOR), which the regex wildcard `.` does not match
in a regex without the `s` flag. -/
def isLineTerm (c : Char) : Bool :=
  c = '\n' || c = '\r' || c = '\u2028' || c = '\u2029'

/--
`idOk s` holds iff `s` matches the id part `[^.]+\..+` of
`ExtensionIdVersionRegex` against the whole of `s`: a nonempty dot-free run
(the negated class `[^.]` matches any character except the dot, line
terminators included), a literal dot, then at least one further character
matched by `.` — which, in a JS regex without the `s` flag, matches any
character except a line terminator, so the remainder after the dot must be
nonempty and line-terminator-free.  The matched dot is necessarily the first
dot of `s` (the `[^.]+` run cannot cross a dot, and giving it fewer
characters leaves a non-dot where `\.` must match), so the first-dot split
is the unique candidate.
-/
def idOk (s : Str) : Bool :=
  match s.dropWhile (fun c => c ≠ '.') with
  | '.' :: rest =>
    (!(s.takeWhile (fun c => c ≠ '.')).isEmpty) && (!rest.isEmpty) &&
      rest.all (fun c => !isLineTerm c)
  | _ => false

/-- Split a string at its last dash: `splitLastDash n = some (p, s)` iff
`n = p ++ '-' :: s` and `s` is dash-free. -/
def splitLastDash : Str → Option (Str × Str)
  | [] => none
  | c :: cs =>
    match splitLastDash cs with
    | some (p, s) => some (c :: p, s)
    | none => if c = '-' then some ([], cs) else none

/-- The identity `(packageId, version)` encoded in a cached file name
(`ExtensionIdentifierWithVersion` restricted to the fields the downloader
uses). -/
structure Identity where
  id : Str
  version : Str
deriving DecidableEq, Repr

instance : Inhabited Identity := ⟨⟨[], []⟩⟩

/--
`parse` (lines 101–104): run `ExtensionIdVersionRegex` on the name and build
the identity from groups 1 and 2, or return `none`.

The regex match, when it succeeds, is the split of the name at its *last*
dash: group 2 must match `\d+\.\d+\.\d+` up to the end anchor, and that
pattern contains no dash, so no earlier dash can start group 2.  Greedy
backtracking of `.+` therefore reaches exactly this split, and the match
succeeds iff the prefix satisfies `idOk` and the suffix `versionOk`.  When the
regex matches, groups 1 and 2 are nonempty, so the JS truthiness checks
`matches[1] && matches[2]` never fail on a match.
-/
def parseName (name : Str) : Option Identity :=
  match splitLastDash name with
  | some (p, s) => if idOk p && versionOk s then some ⟨p, s⟩ else none
  | none => none

/--
The enabled-mode branch of `getName` (line 98):
`new ExtensionIdentifierWithVersion(extension.identifier, extension.version).key().toLowerCase()`.

Modelled from the spec: `ExtensionIdentifierWithVersion.key()` is defined in
`extensionManagementUtil.ts`, which is not part of the source tree; the spec
gives the canonical serialization as `"<packageId>-<version>"`, lower-cased
when writing.
-/
def getNameEnabled (i : Identity) : Str := lowerStr (i.id ++ '-' :: i.version)

end ExtDl

namespace ExtDl

/-- A directory-listing child (`IFileStat` restricted to what `cleanUp` uses):
its file name and its resource, the latter modelled as an opaque numeric
identifier standing for the `URI`. -/
structure Stat where
  name : Str
  resource : Nat
deriving DecidableEq, Repr

instance : Inhabited Stat := ⟨⟨[], 0⟩⟩

/--
The first loop of `cleanUp` (lines 71–78): partition the children into
`all` (pairs of parsed identity and stat, in listing order) and the resources
of unrecognized children pushed onto `toDelete` (in listing order).
-/
def partitionChildren : List Stat → List (Identity × Stat) × List Nat
  | [] => ([], [])
  | s :: rest =>
    let (a, d) := partitionChildren rest
    match parseName s.name with
    | some i => ((i, s) :: a, d)
    | none => (a, s.resource :: d)

/-- A group of entries sharing a package id: a first-encountered head entry
plus the later entries, kept nonempty by construction. -/
abbrev Group := (Identity × Stat) × List (Identity × Stat)

/-- The members of a group, in encounter order. -/
def Group.members (g : Group) : List (Identity × Stat) := g.1 :: g.2

/--
Modelled from the spec: `groupByExtension` (line 79) is defined in
`extensionManagementUtil.ts`, which is not part of the source tree; the spec
says the valid entries are grouped by `packageId`, with groups in the order
they were first encountered while scanning the listing, and members in
encounter order.  `addEntry` appends one entry to its group, creating a new
group at the end on first sighting.
-/
def addEntry : List Group → (Identity × Stat) → List Group
  | [], e => [(e, [])]
  | (h, t) :: gs, e =>
    if h.1.id = e.1.id then (h, t ++ [e]) :: gs else (h, t) :: addEntry gs e

/-- Modelled from the spec: see `addEntry`. -/
def groupByExt (l : List (Identity × Stat)) : List Group :=
  l.foldl addEntry []

/-- Numeric value of a digit run (used for the three version components). -/
def digitsToNat (s : Str) : Nat :=
  s.foldl (fun n c => 10 * n + (c.toNat - '0'.toNat)) 0

/-- The `(major, minor, patch)` triple of a version string of the shape
`\d+\.\d+\.\d+`. -/
def verTriple (v : Str) : Nat × Nat × Nat :=
  let a := v.takeWhile Char.isDigit
  let r1 := (v.dropWhile Char.isDigit).drop 1
  let b := r1.takeWhile Char.isDigit
  let r2 := (r1.dropWhile Char.isDigit).drop 1
  (digitsToNat a, digitsToNat b, digitsToNat r2)

/-- Lexicographic `≥` on version triples. -/
def tripleGE (a b : Nat × Nat × Nat) : Bool :=
  b.1 < a.1 || (b.1 == a.1 && (b.2.1 < a.2.1 || (b.2.1 == a.2.1 && b.2.2 ≤ a.2.2)))

/--
Modelled from the spec: the comparator `(a, b) => semver.rcompare(a[0].version,
b[0].version)` (line 82) sorts a group by version, descending, under full
semantic-version comparison of major, then minor, then patch (the spec's
step 5; the `semver` library is an external collaborator).  An entry `x`
may precede `y` iff `tripleGE (verTriple x) (verTriple y)`.
-/
def verGE (x y : Identity × Stat) : Bool :=
  tripleGE (verTriple x.1.version) (verTriple y.1.version)

/-- The `Prop` form of `verGE`, for use with `List.insertionSort`. -/
def verR (x y : Identity × Stat) : Prop := verGE x y = true

instance : DecidableRel verR := fun x y => by unfold verR; infer_instance

/--
`p.sort(comparator)` on a group (line 82): the members, sorted descending by
version.  `Array.prototype.sort` is a stable comparison sort; for a total,
transitive comparator any stable sort produces the same list, so it is
modelled by the (stable) insertion sort.
-/
def sortGroup (g : Group) : List (Identity × Stat) :=
  List.insertionSort verR (Group.members g)

/--
The decisions of one reconciliation pass over a listing, by stage:
`unrecognized` (line 76), `outdated` (line 83), the kept representatives
`distinct`/`reps` (lines 80, 84), and `excess` (line 86, the slice
`distinct.slice(0, max(0, distinct.length - cache))`).  The full deletion
list of the pass is `toDelete = unrecognized ++ outdated ++ excess`, matching
the push order of the source.
-/
structure Plan where
  unrecognized : List Nat
  outdated : List Nat
  reps : List Nat
  excess : List Nat
deriving Repr

def Plan.toDelete (p : Plan) : List Nat :=
  p.unrecognized ++ p.outdated ++ p.excess

/-- The pure decision logic of `cleanUp` (lines 69–86) over a listing. -/
def mkPlan (children : List Stat) (cache : Nat) : Plan :=
  let pc := partitionChildren children
  let groups := groupByExt pc.1
  let sorted := groups.map sortGroup
  let outdated := (sorted.map (fun l => l.tail.map (fun e => e.2.resource))).flatten
  let reps := sorted.map (fun l => l.headI.2.resource)
  ⟨pc.2, outdated, reps, reps.take (reps.length - cache)⟩

end ExtDl

namespace ExtDl

/-- An opaque error value thrown by a Blob Store operation. -/
structure Err where
  code : Nat
deriving DecidableEq, Repr

instance : Inhabited Err := ⟨⟨0⟩⟩

/-- What `cleanUp` logs through `ILogService`: the missing-cache-dir trace
(line 64), the per-deletion trace (line 88), and the caught error (line 93). -/
inductive LogEntry where
  | traceNoDir
  | traceDelete (resource : Nat)
  | error (e : Err)
deriving DecidableEq, Repr

/-- `folderStat` restricted to what `cleanUp` reads: the optional `children`
listing (line 68). -/
structure FolderStat where
  children : Option (List Stat)

/-- The Blob Store's behavior during one reconciliation pass: the result of
the existence check on the cache root (line 63), of `resolve` (line 67), and
of each `del` by resource (line 89).  Each operation may fail. -/
structure StoreOracle where
  rootExists : Except Err Bool
  resolveRoot : Except Err FolderStat
  del : Nat → Except Err Unit

/--
`await Promise.all(...)` over the deletion results (line 87), as observed by
the awaiting pass: `ok` when every deletion succeeded, otherwise the first
rejection.  This synchronous model takes the results in list order; the
timing-sensitive aspects of `Promise.all` are modelled separately by
`deletePhase`.
-/
def promiseAllList : List (Except Err Unit) → Except Err Unit
  | [] => .ok ()
  | .ok _ :: rest => promiseAllList rest
  | .error e :: _ => .error e

/-- The body of `cleanUp` (lines 62–91), without the top-level catch: the log
it emits and its outcome (an error when any step threw). -/
def cleanUpBody (o : StoreOracle) (cache : Nat) : List LogEntry × Except Err Unit :=
  match o.rootExists with
  | .error e => ([], .error e)
  | .ok false => ([.traceNoDir], .ok ())
  | .ok true =>
    match o.resolveRoot with
    | .error e => ([], .error e)
    | .ok fs =>
      match fs.children with
      | none => ([], .ok ())
      | some children =>
        let td := (mkPlan children cache).toDelete
        (td.map .traceDelete, promiseAllList (td.map o.del))

/-- `cleanUp` (lines 61–95): the body wrapped in the `try`/`catch` that logs
the caught error (line 93) and completes normally.  The return type has no
error component: the pass cannot propagate a failure. -/
def cleanUp (o : StoreOracle) (cache : Nat) : List LogEntry :=
  match cleanUpBody o cache with
  | (l, .ok _) => l
  | (l, .error e) => l ++ [.error e]

/-- Timing behavior of the individual deletions: for each resource, the
instant its `del` settles and whether it fails. -/
structure DelOracle where
  time : Nat → Nat
  fails : Nat → Option Err

/-- The resources whose deletion fails. -/
def failing (o : DelOracle) (rs : List Nat) : List Nat :=
  rs.filter (fun r => (o.fails r).isSome)

/-- The earliest-settling resource of a list (first in list order on ties). -/
def earliest (o : DelOracle) : List Nat → Option Nat
  | [] => none
  | r :: rs =>
    match earliest o rs with
    | none => some r
    | some m => if o.time r ≤ o.time m then some r else some m

/-- The instant the last of the listed deletions settles. -/
def maxTime (o : DelOracle) (rs : List Nat) : Nat :=
  rs.foldl (fun n r => max n (o.time r)) 0

/-- What the pass observes of the deletion fan-out: which deletions were
launched, when the awaited `Promise.all` settles, and its outcome. -/
structure PhaseResult where
  issued : List Nat
  completionTime : Nat
  outcome : Except Err Unit
deriving Repr

/--
The deletion fan-out of `cleanUp` (lines 87–90): `toDelete.map(...)` launches
every deletion synchronously (so all are issued regardless of later
failures), and the pass awaits `Promise.all` over them.  `Promise.all`
resolves at the last completion when every deletion succeeds, and rejects at
the first (earliest) failure, without waiting for the deletions still in
flight; the already-launched siblings are not cancelled (they stay issued).
-/
def deletePhase (o : DelOracle) (rs : List Nat) : PhaseResult :=
  match earliest o (failing o rs) with
  | none => ⟨rs, maxTime o rs, .ok ()⟩
  | some r => ⟨rs, o.time r, .error ((o.fails r).getD default)⟩

/-- The log of the deletion phase as handled by the pass: one trace per
launched deletion (line 88, emitted at launch), plus — when the combined
promise rejects — the single error logged by the pass-level catch (line 93). -/
def deletePhaseLog (o : DelOracle) (rs : List Nat) : List LogEntry :=
  rs.map .traceDelete ++
    (match (deletePhase o rs).outcome with
     | .ok _ => []
     | .error e => [.error e])

/-- A record of one Artifact Fetcher invocation
(`extensionGalleryService.download`, line 57): the requested identity, the
target location, and the operation context passed along. -/
structure FetchCall where
  ident : Identity
  loc : Str
  operation : Nat
deriving DecidableEq, Repr

/--
`download` (lines 55–59): fetch only when the location does not already
exist.  The Blob Store under the cache root is the list of existing
locations (canonical names); the Artifact Fetcher's postcondition — after a
fetch the target exists — is modelled from the spec (§6: `fetch` writes the
artifact's bytes such that afterward `exists(targetLocation)` is true).
Returns the store afterwards and the fetch calls made.
-/
def download (store : List Str) (i : Identity) (loc : Str) (op : Nat) :
    List Str × List FetchCall :=
  if loc ∈ store then (store, [])
  else (loc :: store, [⟨i, loc, op⟩])

/-- `downloadExtension` (lines 41–46) in enabled mode, past the
reconciliation gate: compute the canonical location, run `download`, return
the location. -/
def downloadExtension (store : List Str) (i : Identity) (op : Nat) :
    (List Str × List FetchCall) × Str :=
  let loc := getNameEnabled i
  (download store i loc op, loc)

/--
`delete` (lines 48–53): delete immediately iff caching is disabled
(`!this.cache`, i.e. the cache constant is `0`).  The Blob Store is the list
of stored locations together with a deletion oracle giving success or failure
per location; a successful deletion removes the location, a failed one
propagates its error.  In enabled mode nothing is touched and no error can
arise.
-/
def deleteArtifact (cache : Nat) (delOracle : Nat → Except Err Unit)
    (store : List Nat) (loc : Nat) : Except Err (List Nat) :=
  if cache = 0 then
    match delOracle loc with
    | .ok _ => .ok (store.filter (fun x => x ≠ loc))
    | .error e => .error e
  else .ok store

/-- The observable steps of one `downloadExtension` call (lines 41–46), in
program order. -/
inductive DlEvent where
  | awaitReconciliation
  | computeName (n : Str)
  | checkExists (n : Str)
  | fetch (n : Str)
  | ret (n : Str)
deriving DecidableEq, Repr

instance : Inhabited DlEvent := ⟨.awaitReconciliation⟩

/-- The trace of one `downloadExtension` call (lines 41–46) in enabled mode:
`await this.cleanUpPromise` (line 42) strictly precedes the name computation
(line 43), the existence check and possible fetch (lines 56–57), and the
return (line 45). -/
def downloadTrace (i : Identity) (store : List Str) : List DlEvent :=
  let n := getNameEnabled i
  .awaitReconciliation :: .computeName n :: .checkExists n ::
    ((if n ∈ store then [] else [.fetch n]) ++ [.ret n])

/-- Whether `await this.cleanUpPromise` suspends the caller: only while the
one-shot future is still pending.  `cleanUpPromise` is a `readonly` field
assigned once in the constructor and never reset, and a settled JS promise
stays settled, so once resolved a later `await` of it does not suspend. -/
def awaitSuspends (resolved : Bool) : Bool := !resolved

end ExtDl

namespace ExtDl

/-! ### Character and string lemmas for the naming scheme -/

theorem toNat_ofNat_valid (n : Nat) (h : n.isValidChar) : (Char.ofNat n).toNat = n := by
  unfold Char.ofNat Char.ofNatAux
  split
  · rfl
  · exact absurd h ‹_›

theorem lowerChar_of_toNat_lt {c : Char} (h : c.toNat < 65) : lowerChar c = c := by
  unfold lowerChar
  rw [if_neg]
  rintro ⟨h1, _⟩
  have h2 : ('A').toNat ≤ c.toNat := h1
  have h3 : ('A').toNat = 65 := by decide
  omega

theorem lowerChar_digit {c : Char} (h : c.isDigit = true) : lowerChar c = c := by
  apply lowerChar_of_toNat_lt
  simp only [Char.isDigit, decide_eq_true_eq, Bool.and_eq_true] at h
  have h2 : c.toNat ≤ ('9').toNat := h.2
  have h3 : ('9').toNat = 57 := by decide
  omega

theorem lowerChar_ne_low {c d : Char} (hd : d.toNat < 97) (h : c ≠ d) : lowerChar c ≠ d := by
  unfold lowerChar
  split
  · rename_i hc
    obtain ⟨hc1, hc2⟩ := hc
    intro hEq
    have h1 : ('A').toNat ≤ c.toNat := hc1
    have h2 : c.toNat ≤ ('Z').toNat := hc2
    have h3 : ('A').toNat = 65 := by decide
    have h4 : ('Z').toNat = 90 := by decide
    have hvalid : (c.toNat + 32).isValidChar := by
      constructor
      omega
    have h5 : (Char.ofNat (c.toNat + 32)).toNat = c.toNat + 32 := toNat_ofNat_valid _ hvalid
    rw [hEq] at h5
    omega
  · exact h

theorem versionOk_mem {v : Str} (h : versionOk v = true) :
    ∀ c ∈ v, c.isDigit = true ∨ c = '.' := by
  unfold versionOk at h
  split at h
  · rename_i r1 heq1
    split at h
    · rename_i r2 heq2
      simp only [Bool.and_eq_true] at h
      obtain ⟨⟨⟨_, _⟩, _⟩, hall⟩ := h
      intro c hc
      have hv : v = v.takeWhile Char.isDigit ++ '.' :: r1 := by
        conv_lhs => rw [← List.takeWhile_append_dropWhile (p := Char.isDigit) (l := v)]
        rw [heq1]
      rw [hv] at hc
      rcases List.mem_append.mp hc with h1 | h1
      · exact Or.inl (List.mem_takeWhile_imp h1)
      · rcases List.mem_cons.mp h1 with h2 | h2
        · exact Or.inr h2
        · have hr1 : r1 = r1.takeWhile Char.isDigit ++ '.' :: r2 := by
            conv_lhs => rw [← List.takeWhile_append_dropWhile (p := Char.isDigit) (l := r1)]
            rw [heq2]
          rw [hr1] at h2
          rcases List.mem_append.mp h2 with h3 | h3
          · exact Or.inl (List.mem_takeWhile_imp h3)
          · rcases List.mem_cons.mp h3 with h4 | h4
            · exact Or.inr h4
            · exact Or.inl (by simpa using List.all_eq_true.mp hall c h4)
    · exact absurd h (by simp)
  · exact absurd h (by simp)

theorem versionOk_no_dash {v : Str} (h : versionOk v = true) : '-' ∉ v := by
  intro hm
  rcases versionOk_mem h '-' hm with h1 | h1
  · exact absurd h1 (by decide)
  · exact absurd h1 (by decide)

theorem versionOk_lower {v : Str} (h : versionOk v = true) : lowerStr v = v := by
  unfold lowerStr
  have step : ∀ c ∈ v, lowerChar c = c := by
    intro c hc
    rcases versionOk_mem h c hc with h1 | h1
    · exact lowerChar_digit h1
    · rw [h1]
      decide
  calc v.map lowerChar = v.map id := List.map_congr_left step
  _ = v := List.map_id v

end ExtDl

namespace ExtDl

theorem splitLastDash_eq_none {l : Str} (h : '-' ∉ l) : splitLastDash l = none := by
  induction l with
  | nil => rfl
  | cons c cs ih =>
    have hc : ¬(c = '-') := fun e => h (e ▸ List.mem_cons_self c cs)
    have hcs : '-' ∉ cs := fun m => h (List.mem_cons_of_mem _ m)
    unfold splitLastDash
    rw [ih hcs]
    simp [hc]

theorem splitLastDash_append (p s : Str) (hs : '-' ∉ s) :
    splitLastDash (p ++ '-' :: s) = some (p, s) := by
  induction p with
  | nil =>
    rw [List.nil_append]
    unfold splitLastDash
    rw [splitLastDash_eq_none hs]
    simp
  | cons c cs ih =>
    rw [List.cons_append]
    unfold splitLastDash
    rw [ih]

theorem splitLastDash_sound : ∀ {l p s : Str}, splitLastDash l = some (p, s) → l = p ++ '-' :: s := by
  intro l
  induction l with
  | nil => intro p s h; exact absurd h (by simp [splitLastDash])
  | cons c cs ih =>
    intro p s h
    unfold splitLastDash at h
    cases h1 : splitLastDash cs with
    | some ps =>
      rw [h1] at h
      obtain ⟨p0, s0⟩ := ps
      simp only [Option.some.injEq, Prod.mk.injEq] at h
      obtain ⟨hp, hs⟩ := h
      subst hp
      subst hs
      rw [List.cons_append]
      exact congrArg (c :: ·) (ih h1)
    | none =>
      rw [h1] at h
      by_cases hc : c = '-'
      · rw [if_pos hc] at h
        simp only [Option.some.injEq, Prod.mk.injEq] at h
        obtain ⟨hp, hs⟩ := h
        subst hp
        subst hs
        rw [hc]
        rfl
      · rw [if_neg hc] at h
        exact absurd h (by simp)

end ExtDl

namespace ExtDl

theorem lowerChar_dash : lowerChar '-' = '-' := by decide

theorem lowerChar_idem (c : Char) : lowerChar (lowerChar c) = lowerChar c := by
  by_cases hc : 'A' ≤ c ∧ c ≤ 'Z'
  · have h1 : lowerChar c = Char.ofNat (c.toNat + 32) := by
      unfold lowerChar
      rw [if_pos hc]
    rw [h1]
    unfold lowerChar
    rw [if_neg]
    rintro ⟨_, hb⟩
    obtain ⟨h1n, h2n⟩ := hc
    have e1 : ('A').toNat = 65 := by decide
    have e2 : ('Z').toNat = 90 := by decide
    have h1m : ('A').toNat ≤ c.toNat := h1n
    have h2m : c.toNat ≤ ('Z').toNat := h2n
    have hv : (c.toNat + 32).isValidChar := Or.inl (by omega)
    have ht : (Char.ofNat (c.toNat + 32)).toNat = c.toNat + 32 := toNat_ofNat_valid _ hv
    have hbm : (Char.ofNat (c.toNat + 32)).toNat ≤ ('Z').toNat := hb
    omega
  · have h1 : lowerChar c = c := by
      unfold lowerChar
      rw [if_neg hc]
    rw [h1, h1]

theorem lowerStr_idem (s : Str) : lowerStr (lowerStr s) = lowerStr s := by
  unfold lowerStr
  rw [List.map_map]
  exact List.map_congr_left (fun c _ => lowerChar_idem c)

theorem getNameEnabled_eq (i : Identity) :
    getNameEnabled i = lowerStr i.id ++ '-' :: lowerStr i.version := by
  unfold getNameEnabled lowerStr
  rw [List.map_append, List.map_cons, lowerChar_dash]

/--
C2 (amended).  Round-trip of the enabled-mode naming scheme.  The
corrections forced by the code: the serialized name is lower-cased, so only
identities with an already-lower-case `packageId` parse back to themselves
verbatim; and the parse pattern `[^.]+\..+` additionally requires the
`packageId` to contain a dot that is neither its first character nor its last
(with nothing after it), with no JS line terminator after that first dot
(the wildcard `.` does not match line terminators).  Under those conditions
`parse (serialize i) = some i`; conversely, whenever `parse name = some i`,
the name is literally `i.id ++ "-" ++ i.version`, so serializing the parsed
identity reproduces the lower-casing of the name (for an already-lower-case
name, exactly the name that produced it).
-/
theorem naming_roundtrip :
    (∀ i : Identity, lowerStr i.id = i.id → idOk i.id = true → versionOk i.version = true →
      parseName (getNameEnabled i) = some i)
    ∧ ∀ (name : Str) (i : Identity), parseName name = some i →
        name = i.id ++ '-' :: i.version ∧ getNameEnabled i = lowerStr name := by
  constructor
  · intro i hlow hid hv
    rw [getNameEnabled_eq, hlow, versionOk_lower hv]
    unfold parseName
    rw [splitLastDash_append _ _ (versionOk_no_dash hv)]
    simp [hid, hv]
  · intro name i h
    unfold parseName at h
    split at h
    · rename_i p s hsp
      split at h
      · have hi : i = ⟨p, s⟩ := by
          cases h
          rfl
        subst hi
        have hname : name = p ++ '-' :: s := splitLastDash_sound hsp
        exact ⟨hname, by rw [getNameEnabled, hname]⟩
      · exact absurd h (by simp)
    · exact absurd h (by simp)

/-- Witness for C2 (amended): the round-trip at the identity
`(a.b, 1.2.3)`, and the converse direction at the name `a.b-1.2.3`. -/
theorem naming_roundtrip_witness :
    (parseName (getNameEnabled ⟨['a', '.', 'b'], ['1', '.', '2', '.', '3']⟩) =
      some ⟨['a', '.', 'b'], ['1', '.', '2', '.', '3']⟩)
    ∧ (['a', '.', 'b', '-', '1', '.', '2', '.', '3'] =
        (⟨['a', '.', 'b'], ['1', '.', '2', '.', '3']⟩ : Identity).id ++
          '-' :: (⟨['a', '.', 'b'], ['1', '.', '2', '.', '3']⟩ : Identity).version
      ∧ getNameEnabled ⟨['a', '.', 'b'], ['1', '.', '2', '.', '3']⟩ =
          lowerStr ['a', '.', 'b', '-', '1', '.', '2', '.', '3']) :=
  ⟨naming_roundtrip.1 ⟨['a', '.', 'b'], ['1', '.', '2', '.', '3']⟩ (by decide) (by decide)
      (by decide),
    naming_roundtrip.2 ['a', '.', 'b', '-', '1', '.', '2', '.', '3']
      ⟨['a', '.', 'b'], ['1', '.', '2', '.', '3']⟩ (by decide)⟩

/--
Counterexample to C2 as stated.  First: the identity `(ab, 1.0.0)` has no
dash-digit ambiguity and a valid three-part version, yet parsing its
serialized name yields nothing (the pattern requires a dot inside the id), so
`parse (serialize i) ≠ some i`.  Second: the name `A.b-1.2.3` was not
produced by the scheme (serialization always lower-cases, so the scheme
produces `a.b-1.2.3`), yet parsing it yields an identity — refuting "for
every name the scheme did not produce, parsing yields nothing".
-/
theorem naming_roundtrip_counterexample :
    (parseName (getNameEnabled ⟨['a', 'b'], ['1', '.', '0', '.', '0']⟩) = none)
    ∧ parseName ['A', '.', 'b', '-', '1', '.', '2', '.', '3'] =
        some ⟨['A', '.', 'b'], ['1', '.', '2', '.', '3']⟩
    ∧ (∀ i : Identity, getNameEnabled i ≠ ['A', '.', 'b', '-', '1', '.', '2', '.', '3']) := by
  refine ⟨by decide, by decide, ?_⟩
  intro i h
  have h2 : lowerStr (getNameEnabled i) = getNameEnabled i := lowerStr_idem _
  rw [h] at h2
  exact absurd h2 (by decide)

end ExtDl

namespace ExtDl

theorem lowerStr_no_dot {s : Str} (h : '.' ∉ s) : '.' ∉ lowerStr s := by
  intro hm
  rcases List.mem_map.mp hm with ⟨c, hc, he⟩
  by_cases hcd : c = '.'
  · exact h (hcd ▸ hc)
  · exact lowerChar_ne_low (by decide) hcd he

theorem idOk_no_dot {s : Str} (h : '.' ∉ s) : idOk s = false := by
  unfold idOk
  have hd : s.dropWhile (fun c => c ≠ '.') = [] := by
    rw [List.dropWhile_eq_nil_iff]
    intro x hx
    simp only [ne_eq, decide_eq_true_eq]
    exact fun e => h (e ▸ hx)
  rw [hd]

theorem mem_unrec {children : List Stat} {s : Stat} (hs : s ∈ children)
    (hp : parseName s.name = none) : s.resource ∈ (partitionChildren children).2 := by
  induction children with
  | nil => cases hs
  | cons c cs ih =>
    unfold partitionChildren
    rcases List.mem_cons.mp hs with h1 | h1
    · subst h1
      rw [hp]
      exact List.mem_cons_self _ _
    · cases hpc : parseName c.name
      · exact List.mem_cons_of_mem _ (ih h1)
      · exact ih h1

/--
C10.  For every identity whose `packageId` contains no dot, the enabled-mode
serialized name fails the parse pattern (`[^.]+\..+` requires a dot before
the dash-version suffix), so `parse` returns nothing for it; consequently a
cached entry carrying such a name is classified as unrecognized by the
reconciliation pass and is unconditionally marked for deletion, for every
retention limit — even if it is the only version of its package.
-/
theorem dotless_id_unrecognized (i : Identity) (hdot : '.' ∉ i.id)
    (hv : versionOk i.version = true) :
    parseName (getNameEnabled i) = none ∧
    ∀ (children : List Stat) (cache : Nat) (s : Stat),
      s ∈ children → s.name = getNameEnabled i →
      s.resource ∈ (mkPlan children cache).toDelete := by
  have hnone : parseName (getNameEnabled i) = none := by
    rw [getNameEnabled_eq, versionOk_lower hv]
    unfold parseName
    rw [splitLastDash_append _ _ (versionOk_no_dash hv)]
    simp [idOk_no_dot (lowerStr_no_dot hdot)]
  refine ⟨hnone, ?_⟩
  intro children cache s hs hname
  have hp : parseName s.name = none := by
    rw [hname]
    exact hnone
  have hmem := mem_unrec hs hp
  unfold mkPlan Plan.toDelete
  exact List.mem_append_left _ (List.mem_append_left _ hmem)

/-- Witness for C10: the identity `(ab, 1.0.0)` (no dot in the id) serializes
to `ab-1.0.0`, which parses to nothing, and a cache entry with that name —
the only entry of its package — is deleted by the pass even with a large
retention limit. -/
theorem dotless_id_unrecognized_witness :
    parseName (getNameEnabled ⟨['a', 'b'], ['1', '.', '0', '.', '0']⟩) = none ∧
    (5 : Nat) ∈
      (mkPlan [⟨getNameEnabled ⟨['a', 'b'], ['1', '.', '0', '.', '0']⟩, 5⟩] 20).toDelete :=
  ⟨(dotless_id_unrecognized ⟨['a', 'b'], ['1', '.', '0', '.', '0']⟩ (by decide) (by decide)).1,
    (dotless_id_unrecognized ⟨['a', 'b'], ['1', '.', '0', '.', '0']⟩ (by decide) (by decide)).2
      [⟨getNameEnabled ⟨['a', 'b'], ['1', '.', '0', '.', '0']⟩, 5⟩] 20
      ⟨getNameEnabled ⟨['a', 'b'], ['1', '.', '0', '.', '0']⟩, 5⟩
      (List.mem_singleton.mpr rfl) rfl⟩

/--
C8.  During reconciliation, every direct child of the cache root whose name
does not parse into a valid identity is marked for unconditional deletion
(pushed onto `toDelete` in the partition loop, lines 71–78), and the pass
issues a deletion for it (the `toDelete.map` fan-out at line 87, each launch
tracing its resource at line 88) — for every retention limit and every Blob
Store behavior that yields this listing.
-/
theorem unrecognized_always_deleted (o : StoreOracle) (cache : Nat)
    (children : List Stat) (s : Stat) (h1 : o.rootExists = .ok true)
    (h2 : o.resolveRoot = .ok ⟨some children⟩) (hs : s ∈ children)
    (hp : parseName s.name = none) :
    s.resource ∈ (mkPlan children cache).toDelete ∧
    LogEntry.traceDelete s.resource ∈ (cleanUpBody o cache).1 := by
  have hmem : s.resource ∈ (mkPlan children cache).toDelete := by
    unfold mkPlan Plan.toDelete
    exact List.mem_append_left _ (List.mem_append_left _ (mem_unrec hs hp))
  refine ⟨hmem, ?_⟩
  unfold cleanUpBody
  rw [h1, h2]
  exact List.mem_map_of_mem _ hmem

/-- Witness for C8: a one-entry listing `junk` (no dash, no version) is
marked and a deletion is issued for it. -/
theorem unrecognized_always_deleted_witness :
    (4 : Nat) ∈ (mkPlan [⟨['j', 'u', 'n', 'k'], 4⟩] 20).toDelete ∧
    LogEntry.traceDelete 4 ∈
      (cleanUpBody ⟨.ok true, .ok ⟨some [⟨['j', 'u', 'n', 'k'], 4⟩]⟩, fun _ => .ok ()⟩ 20).1 :=
  unrecognized_always_deleted ⟨.ok true, .ok ⟨some [⟨['j', 'u', 'n', 'k'], 4⟩]⟩, fun _ => .ok ()⟩
    20 [⟨['j', 'u', 'n', 'k'], 4⟩] ⟨['j', 'u', 'n', 'k'], 4⟩ rfl rfl
    (List.mem_singleton.mpr rfl) (by decide)

end ExtDl

namespace ExtDl

/--
C9.  The reconciliation pass never propagates a failure: for every behavior
of the Blob Store (missing root, failing existence check, failing resolve,
failing deletions) and every retention limit, `cleanUp` completes normally —
its type carries no error — and equals the log of the body followed, when
the body failed anywhere, by exactly the one caught-and-logged error of the
top-level catch (line 93).  The reconciliation future it backs is therefore
resolved regardless of outcome.
-/
theorem cleanUp_never_raises (o : StoreOracle) (cache : Nat) :
    cleanUp o cache =
      (cleanUpBody o cache).1 ++
        (match (cleanUpBody o cache).2 with
         | .ok _ => []
         | .error e => [LogEntry.error e]) := by
  unfold cleanUp
  rcases h : cleanUpBody o cache with ⟨l, r⟩
  cases r
  · simp
  · simp

/--
C7.  Every `downloadExtension` call awaits the one-shot reconciliation
future strictly first: its trace starts with the await and no later step is
another await, so no name is computed, no existence check made and no fetch
issued before the startup prune has finished; and awaiting the future once
it is resolved does not suspend (the `readonly` promise is created once and
never reset).
-/
theorem download_gated (i : Identity) (store : List Str) :
    (downloadTrace i store).headI = DlEvent.awaitReconciliation ∧
    DlEvent.awaitReconciliation ∉ (downloadTrace i store).tail ∧
    awaitSuspends true = false := by
  refine ⟨rfl, ?_, rfl⟩
  by_cases hmem : getNameEnabled i ∈ store
  · simp [downloadTrace, hmem]
  · simp [downloadTrace, hmem]

/--
C6.  `delete` removes the given location from the Blob Store immediately iff
the mode is disabled (`cache = 0`), with deletion errors propagating to the
caller; when the mode is enabled it is a no-op: the result is exactly the
unchanged store, no error is possible, and the file at the location remains.
-/
theorem delete_iff_disabled (cache : Nat) (o : Nat → Except Err Unit) (store : List Nat)
    (loc : Nat) :
    (cache ≠ 0 → deleteArtifact cache o store loc = .ok store) ∧
    (cache = 0 → o loc = .ok () →
      deleteArtifact cache o store loc = .ok (store.filter (fun x => x ≠ loc)) ∧
        loc ∉ store.filter (fun x => x ≠ loc)) ∧
    (cache = 0 → ∀ e, o loc = .error e → deleteArtifact cache o store loc = .error e) := by
  refine ⟨?_, ?_, ?_⟩
  · intro h
    unfold deleteArtifact
    rw [if_neg h]
  · intro h ho
    subst h
    unfold deleteArtifact
    rw [if_pos rfl, ho]
    refine ⟨rfl, ?_⟩
    simp
  · intro h e ho
    subst h
    unfold deleteArtifact
    rw [if_pos rfl, ho]

/-- Witness for C6: enabled mode (`cache = 20`) leaves the store untouched;
disabled mode removes the location, and a failing deletion propagates its
error. -/
theorem delete_iff_disabled_witness :
    deleteArtifact 20 (fun _ => .ok ()) [7] 7 = .ok [7] ∧
    (deleteArtifact 0 (fun _ => .ok ()) [7] 7 = .ok ([7].filter (fun x => x ≠ 7)) ∧
      (7 : Nat) ∉ [7].filter (fun x => x ≠ 7)) ∧
    deleteArtifact 0 (fun _ => .error ⟨3⟩) [7] 7 = .error ⟨3⟩ :=
  ⟨(delete_iff_disabled 20 (fun _ => .ok ()) [7] 7).1 (by decide),
    (delete_iff_disabled 0 (fun _ => .ok ()) [7] 7).2.1 rfl rfl,
    (delete_iff_disabled 0 (fun _ => .error ⟨3⟩) [7] 7).2.2 rfl ⟨3⟩ rfl⟩

/--
C5.  In enabled mode `download` delegates to the Artifact Fetcher only when
the computed location does not already exist in the Blob Store, and passes
the identity, the exact location and the operation context through
unchanged; since a fetch makes the target exist, the second of two
`downloadExtension` calls for the same identity observes existence and never
fetches, so the two calls together invoke the fetcher at most once.
-/
theorem download_fetch_at_most_once (store : List Str) (i : Identity) (op1 op2 : Nat) :
    ((downloadExtension store i op1).1.2 ++
        (downloadExtension (downloadExtension store i op1).1.1 i op2).1.2).length ≤ 1 ∧
    (getNameEnabled i ∈ store → (downloadExtension store i op1).1.2 = []) ∧
    (∀ c ∈ (downloadExtension store i op1).1.2,
      c = ⟨i, getNameEnabled i, op1⟩ ∧ (downloadExtension store i op1).2 = c.loc) ∧
    (downloadExtension (downloadExtension store i op1).1.1 i op2).1.2 = [] := by
  by_cases hmem : getNameEnabled i ∈ store
  · simp [downloadExtension, download, hmem]
  · simp [downloadExtension, download, hmem]

/-- Witness for C5: from an empty store, the first call fetches once with
the operation context `3` intact, and the second call does not fetch. -/
theorem download_fetch_at_most_once_witness :
    ((downloadExtension [] ⟨['a', '.', 'b'], ['1', '.', '0', '.', '0']⟩ 3).1.2 ++
        (downloadExtension
            (downloadExtension [] ⟨['a', '.', 'b'], ['1', '.', '0', '.', '0']⟩ 3).1.1
            ⟨['a', '.', 'b'], ['1', '.', '0', '.', '0']⟩ 4).1.2).length ≤ 1 ∧
    (getNameEnabled ⟨['a', '.', 'b'], ['1', '.', '0', '.', '0']⟩ ∈ ([] : List Str) →
      (downloadExtension [] ⟨['a', '.', 'b'], ['1', '.', '0', '.', '0']⟩ 3).1.2 = []) ∧
    (∀ c ∈ (downloadExtension [] ⟨['a', '.', 'b'], ['1', '.', '0', '.', '0']⟩ 3).1.2,
      c = ⟨⟨['a', '.', 'b'], ['1', '.', '0', '.', '0']⟩,
            getNameEnabled ⟨['a', '.', 'b'], ['1', '.', '0', '.', '0']⟩, 3⟩ ∧
        (downloadExtension [] ⟨['a', '.', 'b'], ['1', '.', '0', '.', '0']⟩ 3).2 = c.loc) ∧
    (downloadExtension (downloadExtension [] ⟨['a', '.', 'b'], ['1', '.', '0', '.', '0']⟩ 3).1.1
        ⟨['a', '.', 'b'], ['1', '.', '0', '.', '0']⟩ 4).1.2 = [] :=
  download_fetch_at_most_once [] ⟨['a', '.', 'b'], ['1', '.', '0', '.', '0']⟩ 3 4

end ExtDl

namespace ExtDl

theorem init_le_foldl_max (o : DelOracle) :
    ∀ (rs : List Nat) (a : Nat), a ≤ rs.foldl (fun n x => max n (o.time x)) a := by
  intro rs
  induction rs with
  | nil => intro a; exact Nat.le_refl a
  | cons x xs ih =>
    intro a
    exact le_trans (Nat.le_max_left a (o.time x)) (ih (max a (o.time x)))

theorem mem_le_foldl_max (o : DelOracle) :
    ∀ (rs : List Nat) (a r : Nat), r ∈ rs →
      o.time r ≤ rs.foldl (fun n x => max n (o.time x)) a := by
  intro rs
  induction rs with
  | nil => intro a r h; cases h
  | cons x xs ih =>
    intro a r h
    rcases List.mem_cons.mp h with h1 | h1
    · subst h1
      exact le_trans (Nat.le_max_right a (o.time r)) (init_le_foldl_max o xs _)
    · exact ih (max a (o.time x)) r h1

theorem le_maxTime (o : DelOracle) {rs : List Nat} {r : Nat} (h : r ∈ rs) :
    o.time r ≤ maxTime o rs :=
  mem_le_foldl_max o rs 0 r h

theorem earliest_ne_none {o : DelOracle} : ∀ {rs : List Nat}, rs ≠ [] →
    (earliest o rs).isSome = true := by
  intro rs h
  cases rs with
  | nil => exact absurd rfl h
  | cons r rest =>
    unfold earliest
    cases earliest o rest with
    | none => rfl
    | some m =>
      change (if o.time r ≤ o.time m then some r else some m).isSome = true
      split
      · rfl
      · rfl

end ExtDl

namespace ExtDl

/--
Counterexample to C3 as stated.  The deletion fan-out is
`await Promise.all(toDelete.map(r => del(r)))` with no per-deletion catch
(lines 87–90), so: (1) with deletions `0` (fails at instant 1) and `1`
(succeeds at instant 5), the awaited combination settles at instant 1 —
the pass does *not* complete "only after every deletion has finished"; and
(2) with two failing deletions, the pass logs exactly one error (the first
rejection, caught by the top-level catch), not each failure individually.
-/
theorem deletion_fanout_counterexample :
    (deletePhase ⟨fun r => if r = 0 then 1 else 5,
        fun r => if r = 0 then some ⟨7⟩ else none⟩ [0, 1]).completionTime <
      (⟨fun r => if r = 0 then 1 else 5,
          fun r => if r = 0 then some ⟨7⟩ else none⟩ : DelOracle).time 1 ∧
    (failing ⟨fun r => if r = 0 then 1 else 2,
        fun r => if r = 0 then some ⟨7⟩ else some ⟨8⟩⟩ [0, 1]).length = 2 ∧
    (deletePhaseLog ⟨fun r => if r = 0 then 1 else 2,
        fun r => if r = 0 then some ⟨7⟩ else some ⟨8⟩⟩ [0, 1]).countP
      (fun l => match l with | .error _ => true | _ => false) = 1 := by
  decide

/--
C3 (amended).  All marked deletions are launched concurrently (every
resource is issued, before any result is awaited); when every deletion
succeeds, the pass waits for all of them to finish and completes at the last
completion instant; when any deletion fails, the failure is not caught per
deletion: the awaited `Promise.all` rejects with the earliest failure, which
the pass-level catch logs exactly once after the per-launch traces, the pass
still completes normally and does not cancel the already-launched sibling
deletions — but it stops waiting at that first failure.
-/
theorem deletion_fanout (o : DelOracle) (rs : List Nat) :
    (deletePhase o rs).issued = rs ∧
    (failing o rs = [] →
      (deletePhase o rs).outcome = .ok () ∧
      (deletePhase o rs).completionTime = maxTime o rs ∧
      ∀ r ∈ rs, o.time r ≤ (deletePhase o rs).completionTime) ∧
    (failing o rs ≠ [] →
      ∃ e, (deletePhase o rs).outcome = .error e ∧
        deletePhaseLog o rs = rs.map LogEntry.traceDelete ++ [LogEntry.error e]) := by
  refine ⟨?_, ?_, ?_⟩
  · unfold deletePhase
    split
    · rfl
    · rfl
  · intro h
    unfold deletePhase
    rw [h]
    refine ⟨rfl, rfl, ?_⟩
    intro r hr
    exact le_maxTime o hr
  · intro h
    have h1 := earliest_ne_none (o := o) h
    rcases Option.isSome_iff_exists.mp h1 with ⟨r, hr⟩
    refine ⟨(o.fails r).getD default, ?_, ?_⟩
    · unfold deletePhase
      rw [hr]
    · unfold deletePhaseLog deletePhase
      rw [hr]

/-- Witness for C3 (amended): with deletion `0` failing at instant 1 and
deletion `1` succeeding at instant 5, both deletions are issued and the pass
logs the single caught error after the two launch traces. -/
theorem deletion_fanout_witness :
    (deletePhase ⟨fun r => if r = 0 then 1 else 5,
        fun r => if r = 0 then some ⟨7⟩ else none⟩ [0, 1]).issued = [0, 1] ∧
    ∃ e,
      (deletePhase ⟨fun r => if r = 0 then 1 else 5,
          fun r => if r = 0 then some ⟨7⟩ else none⟩ [0, 1]).outcome = .error e ∧
      deletePhaseLog ⟨fun r => if r = 0 then 1 else 5,
          fun r => if r = 0 then some ⟨7⟩ else none⟩ [0, 1] =
        [0, 1].map LogEntry.traceDelete ++ [LogEntry.error e] :=
  ⟨(deletion_fanout ⟨fun r => if r = 0 then 1 else 5,
      fun r => if r = 0 then some ⟨7⟩ else none⟩ [0, 1]).1,
    (deletion_fanout ⟨fun r => if r = 0 then 1 else 5,
        fun r => if r = 0 then some ⟨7⟩ else none⟩ [0, 1]).2.2 (by decide)⟩

end ExtDl

namespace ExtDl

theorem tripleGE_refl (a : Nat × Nat × Nat) : tripleGE a a = true := by
  rcases a with ⟨x, y, z⟩
  simp [tripleGE]

theorem tripleGE_total (a b : Nat × Nat × Nat) : tripleGE a b = true ∨ tripleGE b a = true := by
  rcases a with ⟨x1, y1, z1⟩
  rcases b with ⟨x2, y2, z2⟩
  simp [tripleGE]
  omega

theorem tripleGE_trans {a b c : Nat × Nat × Nat} (h1 : tripleGE a b = true)
    (h2 : tripleGE b c = true) : tripleGE a c = true := by
  rcases a with ⟨x1, y1, z1⟩
  rcases b with ⟨x2, y2, z2⟩
  rcases c with ⟨x3, y3, z3⟩
  simp [tripleGE] at h1 h2 ⊢
  omega

theorem verR_refl (x : Identity × Stat) : verR x x := tripleGE_refl _

theorem verR_total (x y : Identity × Stat) : verR x y ∨ verR y x := tripleGE_total _ _

theorem verR_trans {x y z : Identity × Stat} (h1 : verR x y) (h2 : verR y z) : verR x z :=
  tripleGE_trans h1 h2

theorem sortGroup_perm (g : Group) : (sortGroup g).Perm g.members :=
  List.perm_insertionSort verR g.members

theorem sortGroup_ne_nil (g : Group) : sortGroup g ≠ [] := by
  intro h
  have hl := (sortGroup_perm g).length_eq
  rw [h] at hl
  exact absurd hl.symm (by simp [Group.members])

theorem sortGroup_sorted (g : Group) : List.Sorted verR (sortGroup g) := by
  haveI : IsTotal (Identity × Stat) verR := ⟨verR_total⟩
  haveI : IsTrans (Identity × Stat) verR := ⟨fun _ _ _ => verR_trans⟩
  exact List.sorted_insertionSort verR g.members

theorem sortGroup_headI_ge (g : Group) : ∀ e ∈ g.members, verR (sortGroup g).headI e := by
  intro e he
  have hmem : e ∈ sortGroup g := (sortGroup_perm g).mem_iff.mpr he
  rcases hsg : sortGroup g with _ | ⟨h, t⟩
  · exact absurd hsg (sortGroup_ne_nil g)
  · rw [hsg] at hmem
    have hsorted := sortGroup_sorted g
    rw [hsg] at hsorted
    rcases List.mem_cons.mp hmem with h1 | h1
    · subst h1
      exact verR_refl _
    · exact (List.pairwise_cons.mp hsorted).1 e h1

end ExtDl

namespace ExtDl

theorem headI_cons_tail {α : Type} [Inhabited α] (l : List α) (h : l ≠ []) :
    l.headI :: l.tail = l := by
  cases l with
  | nil => exact absurd rfl h
  | cons a t => rfl

theorem partition_perm (children : List Stat) :
    (((partitionChildren children).1.map (fun e => e.2.resource)) ++
        (partitionChildren children).2).Perm
      (children.map Stat.resource) := by
  induction children with
  | nil => simp [partitionChildren]
  | cons c cs ih =>
    cases hp : parseName c.name with
    | some i =>
      simp only [partitionChildren, hp, List.map_cons]
      rw [List.cons_append]
      exact (ih).cons c.resource
    | none =>
      simp only [partitionChildren, hp, List.map_cons]
      exact List.perm_middle.trans (ih.cons c.resource)

theorem addEntry_flatten_perm (gs : List Group) (e : Identity × Stat) :
    (((addEntry gs e).map Group.members).flatten).Perm
      ((gs.map Group.members).flatten ++ [e]) := by
  induction gs with
  | nil => simp [addEntry, Group.members]
  | cons g rest ih =>
    rcases g with ⟨h, t⟩
    by_cases hid : h.1.id = e.1.id
    · unfold addEntry
      rw [if_pos hid]
      simp only [List.map_cons, List.flatten_cons, Group.members]
      rw [List.cons_append, List.cons_append, List.cons_append]
      refine List.Perm.cons h ?_
      rw [List.append_assoc, List.append_assoc]
      exact List.perm_append_comm.append_left t
    · unfold addEntry
      rw [if_neg hid]
      simp only [List.map_cons, List.flatten_cons, Group.members]
      rw [List.cons_append, List.cons_append, List.cons_append]
      refine List.Perm.cons h ?_
      rw [List.append_assoc]
      exact ih.append_left t

end ExtDl

namespace ExtDl

theorem groupByExt_flatten_perm (l : List (Identity × Stat)) :
    (((groupByExt l).map Group.members).flatten).Perm l := by
  have key : ∀ (l2 : List (Identity × Stat)) (gs : List Group),
      (((l2.foldl addEntry gs).map Group.members).flatten).Perm
        ((gs.map Group.members).flatten ++ l2) := by
    intro l2
    induction l2 with
    | nil =>
      intro gs
      simp
    | cons e l2t ih =>
      intro gs
      have step : ((l2t.foldl addEntry (addEntry gs e)).map Group.members).flatten.Perm
          (((addEntry gs e).map Group.members).flatten ++ l2t) := ih (addEntry gs e)
      refine (List.Perm.trans step ?_)
      refine List.Perm.trans ((addEntry_flatten_perm gs e).append_right l2t) ?_
      rw [List.append_assoc]
      exact List.Perm.refl _
  have h := key l []
  simpa using h

theorem groups_heads_tails_perm (gs : List Group) :
    ((gs.map (fun g => (sortGroup g).headI.2.resource)) ++
        (gs.map (fun g => (sortGroup g).tail.map (fun e => e.2.resource))).flatten).Perm
      ((gs.map Group.members).flatten.map (fun e => e.2.resource)) := by
  induction gs with
  | nil => simp
  | cons g rest ih =>
    simp only [List.map_cons, List.flatten_cons]
    rw [List.cons_append]
    have hone : ((sortGroup g).headI.2.resource ::
        (sortGroup g).tail.map (fun e => e.2.resource)).Perm
        ((Group.members g).map (fun e => e.2.resource)) := by
      have hchs : (sortGroup g).headI :: (sortGroup g).tail = sortGroup g :=
        headI_cons_tail _ (sortGroup_ne_nil g)
      have hmap : ((sortGroup g).map (fun e => e.2.resource)).Perm
          ((Group.members g).map (fun e => e.2.resource)) :=
        (sortGroup_perm g).map _
      rw [← hchs] at hmap
      simpa using hmap
    have swap : (rest.map (fun g => (sortGroup g).headI.2.resource) ++
        ((sortGroup g).tail.map (fun e => e.2.resource) ++
          (rest.map (fun g => (sortGroup g).tail.map (fun e => e.2.resource))).flatten)).Perm
        ((sortGroup g).tail.map (fun e => e.2.resource) ++
          (rest.map (fun g => (sortGroup g).headI.2.resource) ++
            (rest.map (fun g => (sortGroup g).tail.map (fun e => e.2.resource))).flatten)) := by
      rw [← List.append_assoc, ← List.append_assoc]
      exact List.perm_append_comm.append_right _
    refine List.Perm.trans (List.Perm.cons _ swap) ?_
    rw [List.map_append]
    rw [← List.cons_append]
    exact hone.append ih

end ExtDl

namespace ExtDl

theorem plan_perm (children : List Stat) (cache : Nat) :
    ((mkPlan children cache).reps ++
        ((mkPlan children cache).outdated ++ (mkPlan children cache).unrecognized)).Perm
      (children.map Stat.resource) := by
  simp only [mkPlan]
  rw [← List.append_assoc]
  refine List.Perm.trans (List.Perm.append_right _ ?_) (partition_perm children)
  refine List.Perm.trans ?_ ((groupByExt_flatten_perm (partitionChildren children).1).map _)
  rw [List.map_map, List.map_map]
  exact groups_heads_tails_perm _

end ExtDl

namespace ExtDl

theorem nodup_get_mem_take {α : Type} {l : List α} (hnd : l.Nodup) (k : Nat)
    (hk : k < l.length) (m : Nat) : l.get ⟨k, hk⟩ ∈ l.take m ↔ k < m := by
  constructor
  · intro hmem
    rcases List.mem_iff_get.mp hmem with ⟨j, hj⟩
    have hjb : (j : Nat) < min m l.length := by
      simpa [List.length_take] using j.isLt
    have hjm : (j : Nat) < m := lt_of_lt_of_le hjb (min_le_left _ _)
    have hjl : (j : Nat) < l.length := lt_of_lt_of_le hjb (min_le_right _ _)
    have hgt : (l.take m).get j = l.get ⟨(j : Nat), hjl⟩ := by
      simp [List.getElem_take']
    rw [hgt] at hj
    have hfin := (hnd.get_inj_iff).mp hj
    have hv : (j : Nat) = k := congrArg Fin.val hfin
    omega
  · intro hkm
    have hlen : k < (l.take m).length := by
      rw [List.length_take]
      exact lt_min hkm hk
    have hgt : (l.take m).get ⟨k, hlen⟩ = l.get ⟨k, hk⟩ := by
      simp [List.getElem_take']
    rw [← hgt]
    exact List.get_mem _ _ _

/--
C1 (amended).  After pruning unrecognized names and outdated versions, when
the list of kept representatives (one newest-version entry per package, in
the order groups were first encountered) exceeds the retention limit, the
reconciliation pass deletes exactly the excess *head* — the first
`length − retentionLimit` representatives — so the *last* `retentionLimit`
representatives survive (the code slices
`distinct.slice(0, max(0, distinct.length - this.cache))`, line 86); when
the list does not exceed the limit, no representative is deleted.  Stated
for listings whose resources are distinct (a directory listing): the `k`-th
representative is deleted iff `k < length − retentionLimit`.
-/
theorem retention_keeps_last (children : List Stat) (cache : Nat)
    (h : (children.map Stat.resource).Nodup) :
    ∀ (k : Nat) (hk : k < (mkPlan children cache).reps.length),
      ((mkPlan children cache).reps.get ⟨k, hk⟩ ∈ (mkPlan children cache).toDelete ↔
        k < (mkPlan children cache).reps.length - cache) := by
  intro k hk
  have hnd : ((mkPlan children cache).reps ++
      ((mkPlan children cache).outdated ++ (mkPlan children cache).unrecognized)).Nodup :=
    (plan_perm children cache).nodup_iff.mpr h
  rw [List.nodup_append] at hnd
  obtain ⟨hndreps, _, hdisj⟩ := hnd
  have hxreps : (mkPlan children cache).reps.get ⟨k, hk⟩ ∈ (mkPlan children cache).reps :=
    List.get_mem _ _ _
  have hnotout : (mkPlan children cache).reps.get ⟨k, hk⟩ ∉ (mkPlan children cache).outdated :=
    fun hmem => hdisj hxreps (List.mem_append_left _ hmem)
  have hnotunrec :
      (mkPlan children cache).reps.get ⟨k, hk⟩ ∉ (mkPlan children cache).unrecognized :=
    fun hmem => hdisj hxreps (List.mem_append_right _ hmem)
  have hexct : (mkPlan children cache).excess =
      (mkPlan children cache).reps.take ((mkPlan children cache).reps.length - cache) := rfl
  constructor
  · intro hdel
    unfold Plan.toDelete at hdel
    rcases List.mem_append.mp hdel with h1 | h1
    · rcases List.mem_append.mp h1 with h2 | h2
      · exact absurd h2 hnotunrec
      · exact absurd h2 hnotout
    · rw [hexct] at h1
      exact (nodup_get_mem_take hndreps k hk _).mp h1
  · intro hkm
    unfold Plan.toDelete
    refine List.mem_append_right _ ?_
    rw [hexct]
    exact (nodup_get_mem_take hndreps k hk _).mpr hkm

end ExtDl

namespace ExtDl

/--
Counterexample to C1 as stated.  Listing: `a.a-1.0.0` (resource 0),
`a.a-1.2.0` (resource 1), `b.b-2.0.0` (resource 2); retention limit 1.
The representatives, in the order their groups were first encountered, are
`[1, 2]` (`a.a`'s newest, then `b.b`'s).  The claim says the first
`retentionLimit` representatives survive — i.e. resource 1 survives and the
tail (resource 2) is deleted.  The code deletes the excess *head*
(`distinct.slice(0, distinct.length - cache)`, line 86): resource 1 is
deleted and resource 2 survives.
-/
theorem retention_counterexample :
    (mkPlan [⟨['a', '.', 'a', '-', '1', '.', '0', '.', '0'], 0⟩,
        ⟨['a', '.', 'a', '-', '1', '.', '2', '.', '0'], 1⟩,
        ⟨['b', '.', 'b', '-', '2', '.', '0', '.', '0'], 2⟩] 1).reps = [1, 2] ∧
    (1 : Nat) ∈ (mkPlan [⟨['a', '.', 'a', '-', '1', '.', '0', '.', '0'], 0⟩,
        ⟨['a', '.', 'a', '-', '1', '.', '2', '.', '0'], 1⟩,
        ⟨['b', '.', 'b', '-', '2', '.', '0', '.', '0'], 2⟩] 1).toDelete ∧
    (2 : Nat) ∉ (mkPlan [⟨['a', '.', 'a', '-', '1', '.', '0', '.', '0'], 0⟩,
        ⟨['a', '.', 'a', '-', '1', '.', '2', '.', '0'], 1⟩,
        ⟨['b', '.', 'b', '-', '2', '.', '0', '.', '0'], 2⟩] 1).toDelete ∧
    (0 : Nat) ∈ (mkPlan [⟨['a', '.', 'a', '-', '1', '.', '0', '.', '0'], 0⟩,
        ⟨['a', '.', 'a', '-', '1', '.', '2', '.', '0'], 1⟩,
        ⟨['b', '.', 'b', '-', '2', '.', '0', '.', '0'], 2⟩] 1).toDelete := by
  decide

/-- Witness for C1 (amended), at the same listing with limit 1: the first
representative (index 0) is deleted, the second (index 1) is not. -/
theorem retention_keeps_last_witness :
    ((mkPlan [⟨['a', '.', 'a', '-', '1', '.', '0', '.', '0'], 0⟩,
          ⟨['a', '.', 'a', '-', '1', '.', '2', '.', '0'], 1⟩,
          ⟨['b', '.', 'b', '-', '2', '.', '0', '.', '0'], 2⟩] 1).reps.get
        ⟨0, by decide⟩ ∈
        (mkPlan [⟨['a', '.', 'a', '-', '1', '.', '0', '.', '0'], 0⟩,
            ⟨['a', '.', 'a', '-', '1', '.', '2', '.', '0'], 1⟩,
            ⟨['b', '.', 'b', '-', '2', '.', '0', '.', '0'], 2⟩] 1).toDelete ↔
      0 < (mkPlan [⟨['a', '.', 'a', '-', '1', '.', '0', '.', '0'], 0⟩,
            ⟨['a', '.', 'a', '-', '1', '.', '2', '.', '0'], 1⟩,
            ⟨['b', '.', 'b', '-', '2', '.', '0', '.', '0'], 2⟩] 1).reps.length - 1) :=
  retention_keeps_last [⟨['a', '.', 'a', '-', '1', '.', '0', '.', '0'], 0⟩,
      ⟨['a', '.', 'a', '-', '1', '.', '2', '.', '0'], 1⟩,
      ⟨['b', '.', 'b', '-', '2', '.', '0', '.', '0'], 2⟩] 1 (by decide) 0 (by decide)

end ExtDl

namespace ExtDl

/--
C4.  For every package group found during reconciliation, the kept
representative — the head of the group after the descending semantic-version
sort (line 82) — has a version greater than or equal to that of every member
of the group (comparison of major, then minor, then patch); the
representative together with the sorted tail is exactly the group (as a
multiset), and every tail member (`p.slice(1)`, line 83) is marked for
deletion, for every value of the global retention limit — so every version
of the group other than the kept representative is deleted.
-/
theorem newest_version_kept (children : List Stat) (cache : Nat) (g : Group)
    (hg : g ∈ groupByExt (partitionChildren children).1) :
    (∀ e ∈ g.members, verGE (sortGroup g).headI e = true) ∧
    (sortGroup g).headI ∈ g.members ∧
    ((sortGroup g).headI :: (sortGroup g).tail).Perm g.members ∧
    ∀ e ∈ (sortGroup g).tail, e.2.resource ∈ (mkPlan children cache).toDelete := by
  have hperm : ((sortGroup g).headI :: (sortGroup g).tail).Perm g.members := by
    rw [headI_cons_tail _ (sortGroup_ne_nil g)]
    exact sortGroup_perm g
  have hmem : (sortGroup g).headI ∈ g.members :=
    hperm.subset (List.mem_cons_self _ _)
  refine ⟨sortGroup_headI_ge g, hmem, hperm, ?_⟩
  intro e he
  have houtd : e.2.resource ∈ (mkPlan children cache).outdated := by
    simp only [mkPlan]
    rw [List.map_map]
    apply List.mem_flatten.mpr
    refine ⟨(sortGroup g).tail.map (fun e => e.2.resource), ?_, ?_⟩
    · exact List.mem_map_of_mem _ hg
    · exact List.mem_map_of_mem _ he
  unfold Plan.toDelete
  exact List.mem_append_left _ (List.mem_append_right _ houtd)

/-- Witness for C4: the group of `a.a` with versions 1.0.0 (resource 0) and
1.2.0 (resource 1), under limit 20: the sorted head dominates both members,
head plus tail is the whole group, and every tail member is marked for
deletion. -/
theorem newest_version_kept_witness :
    (∀ e ∈ Group.members (⟨(⟨['a', '.', 'a'], ['1', '.', '0', '.', '0']⟩, ⟨['a', '.', 'a', '-', '1', '.', '0', '.', '0'], 0⟩), [(⟨['a', '.', 'a'], ['1', '.', '2', '.', '0']⟩, ⟨['a', '.', 'a', '-', '1', '.', '2', '.', '0'], 1⟩)]⟩ : Group), verGE (sortGroup (⟨(⟨['a', '.', 'a'], ['1', '.', '0', '.', '0']⟩, ⟨['a', '.', 'a', '-', '1', '.', '0', '.', '0'], 0⟩), [(⟨['a', '.', 'a'], ['1', '.', '2', '.', '0']⟩, ⟨['a', '.', 'a', '-', '1', '.', '2', '.', '0'], 1⟩)]⟩ : Group)).headI e = true) ∧
    (sortGroup (⟨(⟨['a', '.', 'a'], ['1', '.', '0', '.', '0']⟩, ⟨['a', '.', 'a', '-', '1', '.', '0', '.', '0'], 0⟩), [(⟨['a', '.', 'a'], ['1', '.', '2', '.', '0']⟩, ⟨['a', '.', 'a', '-', '1', '.', '2', '.', '0'], 1⟩)]⟩ : Group)).headI ∈ Group.members (⟨(⟨['a', '.', 'a'], ['1', '.', '0', '.', '0']⟩, ⟨['a', '.', 'a', '-', '1', '.', '0', '.', '0'], 0⟩), [(⟨['a', '.', 'a'], ['1', '.', '2', '.', '0']⟩, ⟨['a', '.', 'a', '-', '1', '.', '2', '.', '0'], 1⟩)]⟩ : Group) ∧
    ((sortGroup (⟨(⟨['a', '.', 'a'], ['1', '.', '0', '.', '0']⟩, ⟨['a', '.', 'a', '-', '1', '.', '0', '.', '0'], 0⟩), [(⟨['a', '.', 'a'], ['1', '.', '2', '.', '0']⟩, ⟨['a', '.', 'a', '-', '1', '.', '2', '.', '0'], 1⟩)]⟩ : Group)).headI :: (sortGroup (⟨(⟨['a', '.', 'a'], ['1', '.', '0', '.', '0']⟩, ⟨['a', '.', 'a', '-', '1', '.', '0', '.', '0'], 0⟩), [(⟨['a', '.', 'a'], ['1', '.', '2', '.', '0']⟩, ⟨['a', '.', 'a', '-', '1', '.', '2', '.', '0'], 1⟩)]⟩ : Group)).tail).Perm (Group.members (⟨(⟨['a', '.', 'a'], ['1', '.', '0', '.', '0']⟩, ⟨['a', '.', 'a', '-', '1', '.', '0', '.', '0'], 0⟩), [(⟨['a', '.', 'a'], ['1', '.', '2', '.', '0']⟩, ⟨['a', '.', 'a', '-', '1', '.', '2', '.', '0'], 1⟩)]⟩ : Group)) ∧
    ∀ e ∈ (sortGroup (⟨(⟨['a', '.', 'a'], ['1', '.', '0', '.', '0']⟩, ⟨['a', '.', 'a', '-', '1', '.', '0', '.', '0'], 0⟩), [(⟨['a', '.', 'a'], ['1', '.', '2', '.', '0']⟩, ⟨['a', '.', 'a', '-', '1', '.', '2', '.', '0'], 1⟩)]⟩ : Group)).tail,
      e.2.resource ∈ (mkPlan [⟨['a', '.', 'a', '-', '1', '.', '0', '.', '0'], 0⟩, ⟨['a', '.', 'a', '-', '1', '.', '2', '.', '0'], 1⟩] 20).toDelete :=
  newest_version_kept [⟨['a', '.', 'a', '-', '1', '.', '0', '.', '0'], 0⟩, ⟨['a', '.', 'a', '-', '1', '.', '2', '.', '0'], 1⟩] 20 (⟨(⟨['a', '.', 'a'], ['1', '.', '0', '.', '0']⟩, ⟨['a', '.', 'a', '-', '1', '.', '0', '.', '0'], 0⟩), [(⟨['a', '.', 'a'], ['1', '.', '2', '.', '0']⟩, ⟨['a', '.', 'a', '-', '1', '.', '2', '.', '0'], 1⟩)]⟩ : Group) (by decide)

end ExtDl
